import Mathlib

/-!
Verification of the Cobertura export core (`src/cobertura.rs`).

The Rust module is embedded shallowly:

* `BTreeMap<u32, V>` values from the input become association lists
  `List (Nat × V)` whose keys are strictly ascending; the well-formedness
  predicate `CovResult.WF` records that key invariant where a proof needs it.
* `FxHashMap<String, Function>` becomes `List (String × Function)`; its
  iteration order is unspecified in the source, so theorems hold for every
  order of that list.
* `f64` statistics become `ℚ`.  Every value the aggregator produces is a
  count or a sum of `0`/`1` terms followed by one division, all exactly
  representable, so rational arithmetic is a faithful model.
* Symbol demangling and path-stem extraction are external collaborators of
  the module (they live outside `src/cobertura.rs`); method and class name
  strings pass through unchanged and play no role in any statistic.
-/

/-- Modelled from the spec: the per-function record of the external
`CovResult` input (spec section 3); the defining module `defs.rs` is not part
of the analyzed source tree.  Fields: start line and executed flag. -/
structure Function where
  start : Nat
  executed : Bool
  deriving DecidableEq

/-- Modelled from the spec: the external per-file input (spec sections 3
and 6): `lines`: line-number to hit-count (a `BTreeMap`, so the key list is
ascending); `branches`: line-number to ordered branch outcomes; `functions`:
symbol name to function record (hash map, unspecified order). -/
structure CovResult where
  lines : List (Nat × Nat)
  branches : List (Nat × List Bool)
  functions : List (String × Function)
  deriving DecidableEq

/-- Key invariant of the `BTreeMap` input: the `lines` keys are strictly
ascending (hence duplicate-free). -/
def CovResult.WF (result : CovResult) : Prop :=
  List.Chain' (· < ·) (result.lines.map Prod.fst)

/-- `BTreeMap::get`: look a key up in an association list. -/
def lookupVal {α : Type} (m : List (Nat × α)) (k : Nat) : Option α :=
  (m.find? (fun p => decide (p.1 = k))).map Prod.snd

/-- The condition type tag; the source only ever produces `Jump`. -/
inductive ConditionType where
  | Jump
  deriving DecidableEq

/-- One branch condition: index in the branch list, tag, and coverage
(`1` when the branch outcome was true, `0` otherwise). -/
structure Condition where
  number : Nat
  cond_type : ConditionType
  coverage : ℚ
  deriving DecidableEq

/-- The `Line` sum type of the source: `Plain { number, hits }` or
`Branch { number, hits, conditions }`. -/
inductive Line where
  | Plain (number : Nat) (hits : Nat)
  | Branch (number : Nat) (hits : Nat) (conditions : List Condition)
  deriving DecidableEq

/-- `Line::number`. -/
def Line.number : Line → Nat
  | Line.Plain n _ => n
  | Line.Branch n _ _ => n

/-- `Line::covered`: true exactly when `hits > 0`. -/
def Line.covered : Line → Bool
  | Line.Plain _ h => decide (0 < h)
  | Line.Branch _ h _ => decide (0 < h)

/-- Hit count stored in a `Line` (both variants carry one). -/
def Line.hits : Line → Nat
  | Line.Plain _ h => h
  | Line.Branch _ h _ => h

/-- Condition list of a `Line` (`[]` for the `Plain` variant). -/
def Line.conditions : Line → List Condition
  | Line.Plain _ _ => []
  | Line.Branch _ _ cs => cs

/-- Whether a `Line` is the `Branch` variant. -/
def Line.isBranch : Line → Bool
  | Line.Plain _ _ => false
  | Line.Branch _ _ _ => true

/-- The match arm of `CoverageStats::from_lines` that keeps only the
condition lists of `Branch` lines. -/
def branchConditions : Line → Option (List Condition)
  | Line.Branch _ _ conditions => some conditions
  | Line.Plain _ _ => none

/-- `Method { name, signature, lines }`. -/
structure Method where
  name : String
  signature : String
  lines : List Line
  deriving DecidableEq

/-- `Class' { name, file_name, lines, methods }`; `lines` holds the orphan
lines attributed directly to the class. -/
structure Class' where
  name : String
  file_name : String
  lines : List Line
  methods : List Method
  deriving DecidableEq

/-- `Package { name, classes }`. -/
structure Package where
  name : String
  classes : List Class'
  deriving DecidableEq

/-- `Coverage { sources, packages }`, the tree root. -/
structure Coverage where
  sources : List String
  packages : List Package
  deriving DecidableEq

/-- `CoverageStats`: the aggregate numbers computed by the aggregator. -/
structure CoverageStats where
  lines_covered : ℚ
  lines_valid : ℚ
  branches_covered : ℚ
  branches_valid : ℚ
  complexity : ℚ
  deriving DecidableEq

/-- The step of the fold in `CoverageStats::from_lines` that counts lines:
state is `(lines_valid, lines_covered)`; every line adds one to the valid
count, covered lines also add one to the covered count. -/
def lineCountStep (p : ℚ × ℚ) (nl : Nat × Line) : ℚ × ℚ :=
  if (nl.2).covered then (p.1 + 1, p.2 + 1) else (p.1 + 1, p.2)

/-- The inner fold of `CoverageStats::from_lines`: sum of the coverage
values of a condition list. -/
def conditionSum (conditions : List Condition) : ℚ :=
  conditions.foldl (fun hits c => c.coverage + hits) 0

/-- The step of the branch fold in `CoverageStats::from_lines`: state is
`(branches_covered, branches_valid)`; each condition list adds its coverage
sum and its length. -/
def branchCountStep (p : ℚ × ℚ) (conditions : List Condition) : ℚ × ℚ :=
  (p.1 + conditionSum conditions, p.2 + (conditions.length : ℚ))

/-- `CoverageStats::from_lines`: folds one pass over `lines` for the line
counts and one pass over `same_lines` for the branch counts (the source
passes the same iterator twice); `complexity` is always `0`. -/
def CoverageStats.from_lines (lines same_lines : List (Nat × Line)) : CoverageStats :=
  let lv := lines.foldl lineCountStep (0, 0)
  let branches := same_lines.filterMap (fun nl => branchConditions nl.2)
  let bv := branches.foldl branchCountStep (0, 0)
  { lines_valid := lv.1
    lines_covered := lv.2
    branches_covered := bv.1
    branches_valid := bv.2
    complexity := 0 }

/-- `CoverageStats::line_rate`: guarded division. -/
def CoverageStats.line_rate (s : CoverageStats) : ℚ :=
  if 0 < s.lines_valid then s.lines_covered / s.lines_valid else 0

/-- `CoverageStats::branch_rate`: guarded division. -/
def CoverageStats.branch_rate (s : CoverageStats) : ℚ :=
  if 0 < s.branches_valid then s.branches_covered / s.branches_valid else 0

/-- `impl Stats for Line`: a single leaf keyed by its number. -/
def Line.get_lines (l : Line) : List (Nat × Line) := [(l.number, l)]

/-- `impl Stats for Method` (through `impl Stats for Vec<T>`). -/
def Method.get_lines (m : Method) : List (Nat × Line) :=
  m.lines.flatMap Line.get_lines

/-- `impl Stats for Class'`: note that the source only flattens
`self.methods` — the class's own orphan `lines` are not included. -/
def Class'.get_lines (c : Class') : List (Nat × Line) :=
  c.methods.flatMap Method.get_lines

/-- `impl Stats for Package`. -/
def Package.get_lines (p : Package) : List (Nat × Line) :=
  p.classes.flatMap Class'.get_lines

/-- `impl Stats for Coverage`. -/
def Coverage.get_lines (c : Coverage) : List (Nat × Line) :=
  c.packages.flatMap Package.get_lines

/-- `Stats::get_stats` at `Method`. -/
def Method.get_stats (m : Method) : CoverageStats :=
  CoverageStats.from_lines m.get_lines m.get_lines

/-- `Stats::get_stats` at `Class'`. -/
def Class'.get_stats (c : Class') : CoverageStats :=
  CoverageStats.from_lines c.get_lines c.get_lines

/-- `Stats::get_stats` at `Package`. -/
def Package.get_stats (p : Package) : CoverageStats :=
  CoverageStats.from_lines p.get_lines p.get_lines

/-- `Stats::get_stats` at `Coverage`. -/
def Coverage.get_stats (c : Coverage) : CoverageStats :=
  CoverageStats.from_lines c.get_lines c.get_lines

/-- `all_lines` in `get_coverage`: the ascending list of line numbers of the
file (`result.lines` keys). -/
def all_lines (result : CovResult) : List Nat :=
  result.lines.map Prod.fst

/-- `end` in `get_coverage`: `result.lines.keys().last().unwrap_or(&0) + 1`
(the name `end` is a Lean keyword); the last key of the ascending key list
is its maximum.  Note this is `1`, not `0`, when the lines map is empty. -/
def fileEnd (result : CovResult) : Nat :=
  ((all_lines result).getLast?.getD 0) + 1

/-- The multiset of recorded function start offsets, in map order. -/
def functionStarts (result : CovResult) : List Nat :=
  result.functions.map (fun p => p.2.start)

/-- `start_indexes` in `get_coverage`: all function starts, sorted
ascending (`sort_unstable`). -/
def start_indexes (result : CovResult) : List Nat :=
  List.insertionSort (· ≤ ·) (functionStarts result)

/-- The `func_end` loop in `get_coverage`: the first sorted start strictly
greater than the function's own start, defaulting to the file end
boundary. -/
def func_end (result : CovResult) (fstart : Nat) : Nat :=
  ((start_indexes result).find? (fun s => decide (fstart < s))).getD (fileEnd result)

/-- The filter `x >= function.start && x < func_end` in `get_coverage`. -/
def inFunctionRange (result : CovResult) (f : Function) (x : Nat) : Bool :=
  decide (f.start ≤ x) && decide (x < func_end result f.start)

/-- `lines_in_function` in `get_coverage`: the file's line numbers lying in
the function's half-open range. -/
def lines_in_function (result : CovResult) (f : Function) : List Nat :=
  (all_lines result).filter (inFunctionRange result f)

/-- `line_from_number` in `get_coverage`: hits default to `0` when absent;
a line becomes `Branch` exactly when the branches map has an entry for it,
with one `Condition` per ordered branch outcome (index = position, type
`Jump`, coverage `1` for true and `0` for false). -/
def line_from_number (result_lines : List (Nat × Nat))
    (result_branches : List (Nat × List Bool)) (number : Nat) : Line :=
  let hits := (lookupVal result_lines number).getD 0
  match lookupVal result_branches number with
  | some branches =>
      Line.Branch number hits
        ((branches.enum).map (fun q =>
          { number := q.1
            cond_type := ConditionType.Jump
            coverage := if q.2 then 1 else 0 }))
  | none => Line.Plain number hits

/-- The `methods` construction in `get_coverage`: one `Method` per function
map entry (duplicate starts included), holding the classified lines of its
range; the demangled-or-raw name is the external name string unchanged. -/
def buildMethods (result : CovResult) : List Method :=
  result.functions.map (fun p =>
    { name := p.1
      signature := ""
      lines := (lines_in_function result p.2).map
        (line_from_number result.lines result.branches) })

/-- The `orphan_lines` pool of `get_coverage`: a `BTreeSet` seeded with
every line number, drained by each function's claimed range; on the
ascending duplicate-free key list this is the fold of range-removals. -/
def orphan_lines (result : CovResult) : List Nat :=
  result.functions.foldl
    (fun pool p => pool.filter (fun x => ! inFunctionRange result p.2 x))
    (all_lines result)

/-- The `Class'` built by `get_coverage` for one file: orphan lines
classified into leaves plus the methods.  Path-stem extraction for the
class name is an external path operation; the name strings play no role in
any statistic. -/
def buildClass (name file_name : String) (result : CovResult) : Class' :=
  { name := name
    file_name := file_name
    lines := (orphan_lines result).map
      (line_from_number result.lines result.branches)
    methods := buildMethods result }

/-- `get_coverage`: one package per input file (the unused absolute path of
the input triple is dropped), single fixed source root.  The package owns
exactly one class. -/
def get_coverage (results : List (String × CovResult)) : Coverage :=
  { sources := ["."]
    packages := results.map (fun p =>
      { name := p.1, classes := [buildClass p.1 p.1 p.2] }) }

/-- Every leaf of the built class tree, methods' lines first and the
class's own orphan lines after, mirroring the document layout. -/
def classLeaves (c : Class') : List Line :=
  c.methods.flatMap Method.lines ++ c.lines

/-- Number of leaves of the built class carrying a given line number. -/
def leafCount (c : Class') (x : Nat) : Nat :=
  (classLeaves c).countP (fun l => decide (l.number = x))

/-- Number of function entries whose attributed range contains a given
line number. -/
def claimCount (result : CovResult) (x : Nat) : Nat :=
  result.functions.countP (fun p => inFunctionRange result p.2 x)

/-- The distinct start offsets among the function entries whose range
contains a given line number. -/
def claimStarts (result : CovResult) (x : Nat) : List Nat :=
  ((result.functions.filter (fun p => inFunctionRange result p.2 x)).map
    (fun p => p.2.start)).dedup

/-- Modelled from the spec: the claimed exclusive end of a function — the
smallest recorded start strictly greater than its own start, falling back
to the file end boundary (spec section 4.1).  Stated from the spec's words
(`min` of the starts above, default = boundary) to compare against the
source's `func_end` loop over the sorted start list. -/
def minStartAbove (result : CovResult) (s : Nat) : Nat :=
  ((functionStarts result).filter (fun a => decide (s < a))).foldl min
    ((((functionStarts result).filter (fun a => decide (s < a))).head?).getD (fileEnd result))

/-- Both rates of a statistics record are the guarded quotients: the exact
quotient when the denominator is nonzero and `0` when it is zero. -/
def ratesOk (s : CoverageStats) : Prop :=
  s.line_rate = (if s.lines_valid = 0 then 0 else s.lines_covered / s.lines_valid) ∧
  s.branch_rate = (if s.branches_valid = 0 then 0 else s.branches_covered / s.branches_valid)

/-- Scenario A of the source's `test_cobertura` test: eight lines, branches
on lines 3 and 5, one function starting at line 1. -/
def scenarioA : CovResult :=
  { lines := [(1, 1), (2, 1), (3, 2), (4, 1), (5, 0), (6, 0), (8, 1), (9, 1)]
    branches := [(3, [true, false]), (5, [false, false])]
    functions := [("cov_test::main", ⟨1, true⟩)] }

/-- Scenario B of the source's `test_cobertura_double_lines` test: eight
lines, a branch on line 8, three function entries starting at line 1 and
two starting at line 6 (mangled names abbreviated; names play no role). -/
def scenarioB : CovResult :=
  { lines := [(1, 2), (3, 0), (6, 2), (7, 1), (8, 2), (9, 1), (11, 1), (12, 2)]
    branches := [(8, [true, false])]
    functions :=
      [("cov_test::test_fn", ⟨6, true⟩),
       ("cov_test::main::a", ⟨1, false⟩),
       ("cov_test::main::b", ⟨1, true⟩),
       ("cov_test::test_fn::closure", ⟨6, true⟩),
       ("cov_test::main::c", ⟨1, false⟩)] }

/-- A file holding a single covered line claimed by no function: the line
ends up in the class's orphan list. -/
def orphanOnlyResult : CovResult :=
  { lines := [(1, 1)], branches := [], functions := [] }

/-- A file with an empty lines map. -/
def emptyLinesResult : CovResult :=
  { lines := [], branches := [], functions := [] }

/-- The classifier preserves the line number it is given. -/
lemma line_from_number_number (ls : List (Nat × Nat)) (bs : List (Nat × List Bool)) (x : Nat) :
    (line_from_number ls bs x).number = x := by
  unfold line_from_number
  cases lookupVal bs x <;> simp [Line.number]

/-- The line-counting fold increments its valid component once per leaf. -/
lemma foldl_lineCountStep_fst (l : List (Nat × Line)) :
    ∀ p : ℚ × ℚ, (l.foldl lineCountStep p).1 = p.1 + (l.length : ℚ) := by
  induction l with
  | nil => intro p; simp
  | cons a l ih =>
    intro p
    rw [List.foldl_cons, ih]
    unfold lineCountStep
    split <;> simp [List.length_cons] <;> ring

/-- The branch-counting fold adds each condition-list length to its valid
component. -/
lemma foldl_branchCountStep_snd (bs : List (List Condition)) :
    ∀ p : ℚ × ℚ, (bs.foldl branchCountStep p).2 = p.2 + ((bs.map List.length).sum : ℚ) := by
  induction bs with
  | nil => intro p; simp
  | cons a bs ih =>
    intro p
    rw [List.foldl_cons, ih]
    unfold branchCountStep
    simp [List.map_cons, List.sum_cons]
    ring

/-- `lines_valid` of `from_lines` is the number of leaves of the first
pass. -/
lemma from_lines_lines_valid (l l2 : List (Nat × Line)) :
    (CoverageStats.from_lines l l2).lines_valid = (l.length : ℚ) := by
  unfold CoverageStats.from_lines
  dsimp only
  rw [foldl_lineCountStep_fst]
  ring

/-- `branches_valid` of `from_lines` is the total number of conditions of
the second pass. -/
lemma from_lines_branches_valid (l l2 : List (Nat × Line)) :
    (CoverageStats.from_lines l l2).branches_valid
      = (((l2.filterMap (fun nl => branchConditions nl.2)).map List.length).sum : ℚ) := by
  unfold CoverageStats.from_lines
  dsimp only
  rw [foldl_branchCountStep_snd]
  ring

/-- A statistics record with nonnegative denominators has exactly the
guarded rates. -/
lemma ratesOk_of_nonneg (s : CoverageStats) (hl : 0 ≤ s.lines_valid)
    (hb : 0 ≤ s.branches_valid) : ratesOk s := by
  constructor
  · rw [CoverageStats.line_rate]
    rcases eq_or_lt_of_le hl with h | h
    · rw [if_neg (by rw [← h]; exact lt_irrefl 0), if_pos h.symm]
    · rw [if_pos h, if_neg (ne_of_gt h)]
  · rw [CoverageStats.branch_rate]
    rcases eq_or_lt_of_le hb with h | h
    · rw [if_neg (by rw [← h]; exact lt_irrefl 0), if_pos h.symm]
    · rw [if_pos h, if_neg (ne_of_gt h)]

/-- The record `from_lines` builds always has the guarded rates: its
denominators are a leaf count and a condition count, hence nonnegative. -/
lemma ratesOk_from_lines (l : List (Nat × Line)) :
    ratesOk (CoverageStats.from_lines l l) :=
  ratesOk_of_nonneg _
    (by rw [from_lines_lines_valid]; exact Nat.cast_nonneg _)
    (by rw [from_lines_branches_valid]; exact Nat.cast_nonneg _)

/-- Draining a pool by one filter per list element equals one filter by the
conjunction of all the removals. -/
lemma foldl_filter_eq_filter_all {β : Type} (l : List β) (q : β → Nat → Bool) :
    ∀ init : List Nat,
      l.foldl (fun pool b => pool.filter (fun x => ! q b x)) init
        = init.filter (fun x => l.all (fun b => ! q b x)) := by
  induction l with
  | nil => intro init; simp
  | cons a l ih =>
    intro init
    rw [List.foldl_cons, ih, List.filter_filter]
    apply List.filter_congr
    intro x hx
    simp [List.all_cons, Bool.and_comm]

/-- The orphan pool is the file's line numbers claimed by no function. -/
lemma orphan_lines_eq_filter (result : CovResult) :
    orphan_lines result
      = (all_lines result).filter (fun x =>
          result.functions.all (fun p => ! inFunctionRange result p.2 x)) := by
  unfold orphan_lines
  exact foldl_filter_eq_filter_all _ _ _

/-- Counting inside a flattened map sums the per-element counts. -/
lemma countP_flatMap' {α β : Type} (p : β → Bool) (f : α → List β) (l : List α) :
    (l.flatMap f).countP p = (l.map (fun a => (f a).countP p)).sum := by
  induction l with
  | nil => simp
  | cons a l ih => simp [List.flatMap_cons, List.countP_append, ih]

/-- Counting leaves with a given number after classification counts the
underlying line numbers. -/
lemma countP_number_map (ls : List (Nat × Nat)) (bs : List (Nat × List Bool))
    (xs : List Nat) (x : Nat) :
    (xs.map (line_from_number ls bs)).countP (fun l => decide (l.number = x))
      = xs.countP (fun y => decide (y = x)) := by
  rw [List.countP_map]
  apply List.countP_congr
  intro y hy
  simp [Function.comp, line_from_number_number]

/-- On a duplicate-free list, an equality-and-test count is `1` or `0`. -/
lemma countP_eq_and_of_nodup (xs : List Nat) (hnd : xs.Nodup) (x : Nat) (q : Nat → Bool) :
    xs.countP (fun y => decide (y = x) && q y) = if x ∈ xs ∧ q x then 1 else 0 := by
  induction xs with
  | nil => simp
  | cons a xs ih =>
    rw [List.nodup_cons] at hnd
    rw [List.countP_cons]
    by_cases hax : a = x
    · subst hax
      have h0 : xs.countP (fun y => decide (y = a) && q y) = 0 := by
        rw [List.countP_eq_zero]
        intro b hb
        simp only [Bool.and_eq_true, decide_eq_true_eq, not_and]
        rintro rfl
        exact absurd hb hnd.1
      rw [h0]
      by_cases hq : q a <;> simp [hq]
    · have hpa : (decide (a = x) && q a) = false := by simp [hax]
      have hxa : ¬ x = a := fun h => hax h.symm
      rw [ih hnd.2, hpa]
      simp [List.mem_cons, hxa]

/-- Summing an indicator over a list counts the satisfying elements. -/
lemma sum_map_ite_countP {α : Type} (l : List α) (q : α → Bool) :
    (l.map (fun a => if q a then 1 else 0)).sum = l.countP q := by
  induction l with
  | nil => simp
  | cons a l ih =>
    rw [List.map_cons, List.sum_cons, ih, List.countP_cons]
    by_cases h : q a <;> simp [h, Nat.add_comm]

/-- On a sorted list, `find?` with the predicate `t < ·` returns the least
member above `t`. -/
lemma sorted_find_least (t : Nat) :
    ∀ l : List Nat, List.Sorted (· ≤ ·) l →
      ∀ u, l.find? (fun a => decide (t < a)) = some u →
        u ∈ l ∧ t < u ∧ ∀ b ∈ l, t < b → u ≤ b := by
  intro l
  induction l with
  | nil => intro _ u h; simp at h
  | cons a l ih =>
    intro hs u hu
    rw [List.sorted_cons] at hs
    by_cases h : t < a
    · rw [List.find?_cons_of_pos _ (by simpa using h)] at hu
      cases hu
      refine ⟨List.mem_cons_self _ _, h, ?_⟩
      intro b hb _
      rcases List.mem_cons.mp hb with rfl | hb
      · exact le_refl _
      · exact hs.1 b hb
    · rw [List.find?_cons_of_neg _ (by simpa using h)] at hu
      obtain ⟨hmem, hlt, hmin⟩ := ih hs.2 u hu
      refine ⟨List.mem_cons_of_mem _ hmem, hlt, ?_⟩
      intro b hb htb
      rcases List.mem_cons.mp hb with rfl | hb
      · exact absurd htb h
      · exact hmin b hb htb

/-- Sorting does not change which starts are recorded. -/
lemma mem_start_indexes (result : CovResult) (s : Nat) :
    s ∈ start_indexes result ↔ s ∈ functionStarts result := by
  unfold start_indexes
  exact List.mem_insertionSort _

/-- A left fold by `min` bounds every element of the extended list and
lands on one of them. -/
lemma foldl_min_le_mem :
    ∀ (rest : List Nat) (a : Nat),
      (∀ b ∈ a :: rest, rest.foldl min a ≤ b) ∧ rest.foldl min a ∈ a :: rest := by
  intro rest
  induction rest with
  | nil =>
    intro a
    refine ⟨?_, List.mem_cons_self _ _⟩
    intro b hb
    rcases List.mem_cons.mp hb with rfl | hb
    · exact le_refl _
    · exact absurd hb (List.not_mem_nil _)
  | cons c rest ih =>
    intro a
    rw [List.foldl_cons]
    obtain ⟨ihle, ihmem⟩ := ih (min a c)
    constructor
    · intro b hb
      rcases List.mem_cons.mp hb with rfl | hb
      · exact le_trans (ihle _ (List.mem_cons_self _ _)) (min_le_left _ _)
      · rcases List.mem_cons.mp hb with rfl | hb
        · exact le_trans (ihle _ (List.mem_cons_self _ _)) (min_le_right _ _)
        · exact ihle _ (List.mem_cons_of_mem _ hb)
    · rcases List.mem_cons.mp ihmem with he | hm
      · rcases min_choice a c with hac | hac
        · rw [he, hac]; exact List.mem_cons_self _ _
        · rw [he, hac]; exact List.mem_cons_of_mem _ (List.mem_cons_self _ _)
      · exact List.mem_cons_of_mem _ (List.mem_cons_of_mem _ hm)

/-- The source's sorted-scan end computation agrees with the spec's
"smallest recorded start strictly above, else the boundary". -/
lemma func_end_eq_minStartAbove (result : CovResult) (s : Nat) :
    func_end result s = minStartAbove result s := by
  unfold func_end minStartAbove
  cases hf : (functionStarts result).filter (fun a => decide (s < a)) with
  | nil =>
    have hnone : (start_indexes result).find? (fun a => decide (s < a)) = none := by
      rw [List.find?_eq_none]
      intro x hx
      have hx' : x ∈ functionStarts result := (mem_start_indexes result x).mp hx
      have := List.filter_eq_nil_iff.mp hf x hx'
      simpa using this
    rw [hnone]
    simp
  | cons a rest =>
    have hm := foldl_min_le_mem rest a
    have hmemFilter : rest.foldl min a
        ∈ (functionStarts result).filter (fun v => decide (s < v)) := by
      rw [hf]; exact hm.2
    have hmemStarts : rest.foldl min a ∈ functionStarts result :=
      List.mem_of_mem_filter hmemFilter
    have hslt : s < rest.foldl min a := by
      have := List.of_mem_filter hmemFilter
      simpa using this
    cases hfind : (start_indexes result).find? (fun v => decide (s < v)) with
    | none =>
      exfalso
      have := List.find?_eq_none.mp hfind (rest.foldl min a)
        ((mem_start_indexes result _).mpr hmemStarts)
      simp [hslt] at this
    | some u =>
      obtain ⟨humem, hult, humin⟩ :=
        sorted_find_least s (start_indexes result)
          (List.sorted_insertionSort _ _) u hfind
      have h1 : u ≤ rest.foldl min a :=
        humin _ ((mem_start_indexes result _).mpr hmemStarts) hslt
      have humem' : u ∈ functionStarts result := (mem_start_indexes result u).mp humem
      have h2 : rest.foldl min a ≤ u := by
        have hu : u ∈ (functionStarts result).filter (fun v => decide (s < v)) :=
          List.mem_filter.mpr ⟨humem', by simpa using hult⟩
        rw [hf] at hu
        exact hm.1 u hu
      simp only [Option.getD_some, List.head?_cons, List.foldl_cons, min_self]
      exact le_antisymm h1 h2

/-- The last element of a list is a member. -/
lemma getLast_mem_self : ∀ (l : List Nat) (m : Nat), l.getLast? = some m → m ∈ l := by
  intro l m h
  rw [List.getLast?_eq_some_iff] at h
  obtain ⟨ys, rfl⟩ := h
  exact List.mem_append_right _ (List.mem_cons_self _ _)

/-- On a strictly ascending key list, every key is at most the last one. -/
lemma wf_le_getLast (result : CovResult) (hwf : result.WF) :
    ∀ k ∈ all_lines result, ∀ m, (all_lines result).getLast? = some m → k ≤ m := by
  intro k hk m hm
  rw [List.getLast?_eq_some_iff] at hm
  obtain ⟨ys, hys⟩ := hm
  have hp : (all_lines result).Pairwise (· < ·) := List.chain'_iff_pairwise.mp hwf
  rw [hys] at hp hk
  rw [List.pairwise_append] at hp
  rcases List.mem_append.mp hk with h | h
  · exact le_of_lt (hp.2.2 k h m (List.mem_cons_self _ _))
  · rw [List.mem_singleton] at h
    exact le_of_eq h

/-- A list whose elements are pairwise equal has at most one distinct
value. -/
lemma dedup_length_le_one {l : List Nat} (h : ∀ a ∈ l, ∀ b ∈ l, a = b) :
    l.dedup.length ≤ 1 := by
  induction l with
  | nil => simp
  | cons a l ih =>
    cases l with
    | nil => simp
    | cons b l2 =>
      have hab : a ∈ b :: l2 := by
        have := h a (List.mem_cons_self _ _) b
          (List.mem_cons_of_mem _ (List.mem_cons_self _ _))
        rw [this]
        exact List.mem_cons_self _ _
      rw [List.dedup_cons_of_mem hab]
      exact ih (fun c hc d hd =>
        h c (List.mem_cons_of_mem _ hc) d (List.mem_cons_of_mem _ hd))

/-- A function whose range would reach past a recorded larger start cannot
claim a line at or beyond that start: its computed end stops there. -/
lemma not_claims_of_start_lt (result : CovResult) (x : Nat) (f g : Function)
    (hg : g.start ∈ functionStarts result) (hlt : f.start < g.start)
    (hgx : g.start ≤ x) : inFunctionRange result f x = false := by
  by_contra h
  rw [Bool.not_eq_false, inFunctionRange, Bool.and_eq_true,
    decide_eq_true_eq, decide_eq_true_eq] at h
  obtain ⟨hfs, hfe⟩ := h
  cases hfind : (start_indexes result).find? (fun s => decide (f.start < s)) with
  | none =>
    have := List.find?_eq_none.mp hfind g.start ((mem_start_indexes result _).mpr hg)
    simp [hlt] at this
  | some u =>
    obtain ⟨-, hfu, hmin⟩ :=
      sorted_find_least f.start (start_indexes result)
        (List.sorted_insertionSort _ _) u hfind
    have hule : u ≤ g.start := hmin _ ((mem_start_indexes result _).mpr hg) hlt
    have hfe' : func_end result f.start = u := by rw [func_end, hfind]; rfl
    rw [hfe'] at hfe
    omega

/-- C1: the code's `Class'::get_lines` flattens only `self.methods`, so the
class's own orphan lines are excluded from the statistics at every level.
On a file whose single covered line belongs to no function, the built class
holds that orphan leaf, yet the class stats and the coverage-root stats
both report `lines_valid = 0` — contradicting the claim that a class's
statistics include its orphan lines (which would give `lines_valid = 1`,
`lines_covered = 1`). -/
theorem c1_class_stats_omit_orphans :
    (buildClass "main" "src/main.rs" orphanOnlyResult).lines = [Line.Plain 1 1] ∧
    (buildClass "main" "src/main.rs" orphanOnlyResult).methods = [] ∧
    (buildClass "main" "src/main.rs" orphanOnlyResult).get_stats.lines_valid = 0 ∧
    (buildClass "main" "src/main.rs" orphanOnlyResult).get_stats.lines_covered = 0 ∧
    (get_coverage [("src/main.rs", orphanOnlyResult)]).get_stats.lines_valid = 0 ∧
    (get_coverage [("src/main.rs", orphanOnlyResult)]).get_stats.line_rate = 0 := by
  decide

/-- C4: the classifier never fails: hits are the lines-map lookup
defaulting to `0`; the result is `Branch` exactly when the branches map has
an entry, carrying one condition per ordered branch outcome with index =
position, type `Jump`, and coverage `1` for a true outcome and `0` for a
false one; otherwise it is `Plain` with just the number and hits. -/
theorem c4_line_classifier (ls : List (Nat × Nat)) (bs : List (Nat × List Bool)) (x : Nat) :
    Line.number (line_from_number ls bs x) = x ∧
    Line.hits (line_from_number ls bs x) = (lookupVal ls x).getD 0 ∧
    Line.isBranch (line_from_number ls bs x) = (lookupVal bs x).isSome ∧
    Line.conditions (line_from_number ls bs x) =
      ((lookupVal bs x).getD []).enum.map (fun q =>
        { number := q.1
          cond_type := ConditionType.Jump
          coverage := if q.2 then 1 else 0 }) := by
  unfold line_from_number
  cases h : lookupVal bs x with
  | none => simp [Line.number, Line.hits, Line.isBranch, Line.conditions]
  | some br => simp [Line.number, Line.hits, Line.isBranch, Line.conditions]

/-- C5: on Scenario A the built document's root statistics are
`lines-covered = 6`, `lines-valid = 8`, `line-rate = 0.75`,
`branches-covered = 1`, `branches-valid = 4`, `branch-rate = 0.25`, and the
line-3 leaf is `Branch` with conditions `(0, jump, 1)` and `(1, jump, 0)`. -/
theorem c5_scenario_a :
    (get_coverage [("src/main.rs", scenarioA)]).get_stats.lines_covered = 6 ∧
    (get_coverage [("src/main.rs", scenarioA)]).get_stats.lines_valid = 8 ∧
    (get_coverage [("src/main.rs", scenarioA)]).get_stats.line_rate = 3 / 4 ∧
    (get_coverage [("src/main.rs", scenarioA)]).get_stats.branches_covered = 1 ∧
    (get_coverage [("src/main.rs", scenarioA)]).get_stats.branches_valid = 4 ∧
    (get_coverage [("src/main.rs", scenarioA)]).get_stats.branch_rate = 1 / 4 ∧
    Line.Branch 3 2
        [⟨0, ConditionType.Jump, 1⟩, ⟨1, ConditionType.Jump, 0⟩] ∈
      ((get_coverage [("src/main.rs", scenarioA)]).packages.flatMap (fun p =>
        p.classes.flatMap (fun c => c.methods.flatMap Method.lines))) := by
  refine ⟨?_, ?_, ?_, ?_, ?_, ?_, ?_⟩ <;>
    norm_num [scenarioA, get_coverage, buildClass, buildMethods, orphan_lines, all_lines,
      fileEnd, start_indexes, functionStarts, func_end, inFunctionRange, lines_in_function,
      line_from_number, lookupVal, Coverage.get_stats, Coverage.get_lines, Package.get_lines,
      Class'.get_lines, Method.get_lines, Line.get_lines, Line.covered, Line.number,
      CoverageStats.from_lines, lineCountStep, branchCountStep, conditionSum, branchConditions,
      CoverageStats.line_rate, CoverageStats.branch_rate, List.insertionSort, List.orderedInsert,
      List.find?, List.filter, List.foldl, List.enum, List.enumFrom, List.filterMap]

/-- C6: on Scenario B the code emits one method per function entry (five,
duplicates included) — but because every duplicate-start function
independently re-claims the same line range, the root statistics count
those lines once per claiming method: `lines_valid = 18`,
`lines_covered = 15`, `line_rate = 5/6`, `branches_valid = 4`,
`branches_covered = 2` — not the `8`, `7`, `0.875`, `2`, `1` that the claim
and the repository's own `test_cobertura_double_lines` test assert. -/
theorem c6_duplicate_start_double_counts :
    ((get_coverage [("src/main.rs", scenarioB)]).packages.flatMap (fun p =>
      p.classes.flatMap Class'.methods)).length = 5 ∧
    (get_coverage [("src/main.rs", scenarioB)]).get_stats.lines_valid = 18 ∧
    (get_coverage [("src/main.rs", scenarioB)]).get_stats.lines_covered = 15 ∧
    (get_coverage [("src/main.rs", scenarioB)]).get_stats.line_rate = 5 / 6 ∧
    (get_coverage [("src/main.rs", scenarioB)]).get_stats.branches_valid = 4 ∧
    (get_coverage [("src/main.rs", scenarioB)]).get_stats.branches_covered = 2 ∧
    (get_coverage [("src/main.rs", scenarioB)]).get_stats.branch_rate = 1 / 2 := by
  refine ⟨?_, ?_, ?_, ?_, ?_, ?_, ?_⟩ <;>
    norm_num [scenarioB, get_coverage, buildClass, buildMethods, orphan_lines, all_lines,
      fileEnd, start_indexes, functionStarts, func_end, inFunctionRange, lines_in_function,
      line_from_number, lookupVal, Coverage.get_stats, Coverage.get_lines, Package.get_lines,
      Class'.get_lines, Method.get_lines, Line.get_lines, Line.covered, Line.number,
      CoverageStats.from_lines, lineCountStep, branchCountStep, conditionSum, branchConditions,
      CoverageStats.line_rate, CoverageStats.branch_rate, List.insertionSort, List.orderedInsert,
      List.find?, List.filter, List.foldl, List.enum, List.enumFrom, List.filterMap]

/-- C8: statistics are a pure function of the subtree: recomputing
`get_stats` on an unmodified node of any level yields an identical record
— in the embedding of this single-threaded, side-effect-free code, the
recomputation is literally the same function application. -/
theorem c8_stats_idempotent :
    (∀ c : Coverage, c.get_stats = c.get_stats) ∧
    (∀ p : Package, p.get_stats = p.get_stats) ∧
    (∀ c : Class', c.get_stats = c.get_stats) ∧
    (∀ m : Method, m.get_stats = m.get_stats) :=
  ⟨fun _ => rfl, fun _ => rfl, fun _ => rfl, fun _ => rfl⟩

/-- C9: the empty input sequence still produces the full document skeleton:
no packages, `lines-valid = 0` and `line-rate = 0` at the root, and the
fixed single source root. -/
theorem c9_empty_input :
    (get_coverage []).packages = [] ∧
    (get_coverage []).sources = ["."] ∧
    (get_coverage []).get_stats.lines_valid = 0 ∧
    (get_coverage []).get_stats.line_rate = 0 ∧
    (get_coverage []).get_stats.branches_valid = 0 ∧
    (get_coverage []).get_stats.branch_rate = 0 := by
  decide

/-- C7: at every level of the tree — coverage root, package, class, method
— `line_rate` equals `lines_covered / lines_valid` when `lines_valid` is
nonzero and `0` when it is zero, and `branch_rate` analogously; the guarded
definitions never divide by zero, and the denominators produced by the
aggregator are counts, so the guard `> 0` catches exactly the nonzero
case. -/
theorem c7_rates_guarded :
    (∀ c : Coverage, ratesOk c.get_stats) ∧
    (∀ p : Package, ratesOk p.get_stats) ∧
    (∀ c : Class', ratesOk c.get_stats) ∧
    (∀ m : Method, ratesOk m.get_stats) :=
  ⟨fun c => ratesOk_from_lines c.get_lines,
   fun p => ratesOk_from_lines p.get_lines,
   fun c => ratesOk_from_lines c.get_lines,
   fun m => ratesOk_from_lines m.get_lines⟩

/-- C10: every leaf of the built class tree (method lines and orphan lines
alike) carries a line number present in the input lines map; consequently a
branches-map entry whose line number is absent from the lines map produces
no leaf at all — prepending such an entry to the branches map leaves the
built class, and hence every statistic and the emitted tree, unchanged. -/
theorem c10_branch_without_line_ignored (result : CovResult) (n : Nat)
    (bs : List Bool) (nm fn : String) :
    (∀ l ∈ classLeaves (buildClass nm fn result), l.number ∈ all_lines result) ∧
    (n ∉ all_lines result →
      buildClass nm fn
          { lines := result.lines
            branches := (n, bs) :: result.branches
            functions := result.functions }
        = buildClass nm fn result) := by
  constructor
  · intro l hl
    simp only [classLeaves, buildClass, List.mem_append] at hl
    rcases hl with hl | hl
    · simp only [buildMethods, List.mem_flatMap, List.mem_map] at hl
      obtain ⟨m, ⟨p, hp, rfl⟩, hlm⟩ := hl
      simp only [List.mem_map] at hlm
      obtain ⟨x, hx, rfl⟩ := hlm
      rw [line_from_number_number]
      rw [lines_in_function] at hx
      exact List.mem_of_mem_filter hx
    · simp only [List.mem_map] at hl
      obtain ⟨x, hx, rfl⟩ := hl
      rw [line_from_number_number]
      rw [orphan_lines_eq_filter] at hx
      exact List.mem_of_mem_filter hx
  · intro hn
    have hlook : ∀ x ∈ all_lines result,
        lookupVal ((n, bs) :: result.branches) x = lookupVal result.branches x := by
      intro x hx
      have hnx : ¬ (n = x) := fun h => hn (h ▸ hx)
      unfold lookupVal
      rw [List.find?_cons_of_neg _ (by simpa using hnx)]
    unfold buildClass buildMethods
    congr 1
    · have ho : orphan_lines
          { lines := result.lines
            branches := (n, bs) :: result.branches
            functions := result.functions } = orphan_lines result := rfl
      rw [ho]
      apply List.map_congr_left
      intro x hx
      have hxall : x ∈ all_lines result := by
        rw [orphan_lines_eq_filter] at hx
        exact List.mem_of_mem_filter hx
      unfold line_from_number
      dsimp only
      rw [hlook x hxall]
    · apply List.map_congr_left
      intro p hp
      have hl : lines_in_function
          { lines := result.lines
            branches := (n, bs) :: result.branches
            functions := result.functions } p.2 = lines_in_function result p.2 := rfl
      dsimp only
      rw [hl]
      congr 1
      apply List.map_congr_left
      intro x hx
      have hxall : x ∈ all_lines result := by
        rw [lines_in_function] at hx
        exact List.mem_of_mem_filter hx
      unfold line_from_number
      dsimp only
      rw [hlook x hxall]

/-- Witness for C10: the covered leaf of line 1 in Scenario A carries a
line number of the lines map, and prepending a branch entry for the absent
line 7 leaves the built class unchanged. -/
theorem c10_branch_without_line_ignored_witness :
    Line.number (Line.Plain 1 1) ∈ all_lines scenarioA ∧
    buildClass "src/main.rs" "src/main.rs"
        { lines := scenarioA.lines
          branches := (7, [true]) :: scenarioA.branches
          functions := scenarioA.functions }
      = buildClass "src/main.rs" "src/main.rs" scenarioA :=
  ⟨(c10_branch_without_line_ignored scenarioA 7 [true] "src/main.rs" "src/main.rs").1
      (Line.Plain 1 1) (by decide),
   (c10_branch_without_line_ignored scenarioA 7 [true] "src/main.rs" "src/main.rs").2
      (by decide)⟩

/-- C3 counterexample: with an empty lines map the code's end boundary is
`0 + 1 = 1` (from `unwrap_or(&0) + 1`), not `0` as the claim states. -/
theorem c3_empty_end_boundary_is_one :
    fileEnd emptyLinesResult = 1 ∧ fileEnd emptyLinesResult ≠ 0 := by
  decide

/-- C3 (amended): the end boundary is `max line + 1` — every key is below
it and `fileEnd - 1` is a key — but it is `1`, not `0`, when no lines
exist; each function's exclusive end is the smallest recorded start
strictly greater than its own start, falling back to the boundary; and each
method is attributed exactly the file's line numbers within
`[start, end)`. -/
theorem c3_attribution_bounds (result : CovResult) (hwf : result.WF) :
    (result.lines = [] → fileEnd result = 1) ∧
    (∀ k ∈ all_lines result, k < fileEnd result) ∧
    (result.lines ≠ [] → fileEnd result - 1 ∈ all_lines result) ∧
    (∀ p ∈ result.functions,
      func_end result p.2.start = minStartAbove result p.2.start) ∧
    ((buildMethods result).map (fun m => m.lines.map Line.number)
      = result.functions.map (fun p =>
          (all_lines result).filter (inFunctionRange result p.2))) := by
  refine ⟨?_, ?_, ?_, ?_, ?_⟩
  · intro h
    simp [fileEnd, all_lines, h]
  · intro k hk
    cases hm : (all_lines result).getLast? with
    | none =>
      rw [List.getLast?_eq_none_iff] at hm
      rw [hm] at hk
      exact absurd hk (List.not_mem_nil _)
    | some m =>
      have hle := wf_le_getLast result hwf k hk m hm
      unfold fileEnd
      rw [hm]
      simp only [Option.getD_some]
      omega
  · intro h
    have hne : all_lines result ≠ [] := by
      rw [all_lines]
      simpa using h
    cases hm : (all_lines result).getLast? with
    | none => exact absurd (List.getLast?_eq_none_iff.mp hm) hne
    | some m =>
      unfold fileEnd
      rw [hm]
      simpa using getLast_mem_self _ m hm
  · intro p hp
    exact func_end_eq_minStartAbove result p.2.start
  · rw [buildMethods, List.map_map]
    apply List.map_congr_left
    intro p hp
    dsimp only [Function.comp]
    rw [List.map_map]
    have h1 : ∀ x ∈ lines_in_function result p.2,
        (Line.number ∘ line_from_number result.lines result.branches) x = id x := by
      intro x hx
      simp [Function.comp, line_from_number_number]
    rw [List.map_congr_left h1, List.map_id]
    rfl

/-- Witness for C3 (amended) on Scenario A: the boundary minus one is a
recorded line number, and the single function's computed end agrees with
the least-start-above characterization. -/
theorem c3_attribution_bounds_witness :
    fileEnd scenarioA - 1 ∈ all_lines scenarioA ∧
    func_end scenarioA 1 = minStartAbove scenarioA 1 := by
  have h := c3_attribution_bounds scenarioA
    (by unfold CovResult.WF; norm_num [scenarioA, List.chain'_cons, List.chain'_singleton])
  refine ⟨h.2.2.1 (by decide), ?_⟩
  exact h.2.2.2.1 ("cov_test::main", (⟨1, true⟩ : Function)) (by decide)

/-- C2: for a line number of the input lines map, all function entries that
claim it share one start offset (so at most one distinct start claims it),
and the number of leaves carrying it equals the number of claiming entries
— or exactly one orphan leaf when no function claims it.  In particular,
with no duplicate-start functions every line number appears in exactly one
leaf location, while each duplicate-start entry contributes one duplicate
leaf per entry. -/
theorem c2_attribution_exactly_once (result : CovResult) (nm fn : String)
    (hwf : result.WF) (x : Nat) (hx : x ∈ all_lines result) :
    (claimStarts result x).length ≤ 1 ∧
    leafCount (buildClass nm fn result) x
      = (if claimCount result x = 0 then 1 else claimCount result x) := by
  have hpw : (all_lines result).Pairwise (· < ·) := List.chain'_iff_pairwise.mp hwf
  have hnd : (all_lines result).Nodup := hpw.imp (fun h => ne_of_lt h)
  have hsame : ∀ p ∈ result.functions, ∀ q ∈ result.functions,
      inFunctionRange result p.2 x = true → inFunctionRange result q.2 x = true →
      p.2.start = q.2.start := by
    intro p hp' q hq' hpx hqx
    have hqs : q.2.start ≤ x := by
      rw [inFunctionRange, Bool.and_eq_true, decide_eq_true_eq, decide_eq_true_eq] at hqx
      exact hqx.1
    have hps : p.2.start ≤ x := by
      rw [inFunctionRange, Bool.and_eq_true, decide_eq_true_eq, decide_eq_true_eq] at hpx
      exact hpx.1
    rcases Nat.lt_trichotomy p.2.start q.2.start with h | h | h
    · have hfalse := not_claims_of_start_lt result x p.2 q.2
        (List.mem_map.mpr ⟨q, hq', rfl⟩) h hqs
      rw [hpx] at hfalse
      exact absurd hfalse (by simp)
    · exact h
    · have hfalse := not_claims_of_start_lt result x q.2 p.2
        (List.mem_map.mpr ⟨p, hp', rfl⟩) h hps
      rw [hqx] at hfalse
      exact absurd hfalse (by simp)
  constructor
  · rw [claimStarts]
    apply dedup_length_le_one
    intro a ha b hb
    rw [List.mem_map] at ha hb
    obtain ⟨p, hp', rfl⟩ := ha
    obtain ⟨q, hq', rfl⟩ := hb
    rw [List.mem_filter] at hp' hq'
    exact hsame p hp'.1 q hq'.1 hp'.2 hq'.2
  · rw [leafCount, classLeaves]
    simp only [buildClass]
    rw [List.countP_append]
    have hmeth : ((buildMethods result).flatMap Method.lines).countP
        (fun l => decide (l.number = x)) = claimCount result x := by
      rw [buildMethods, countP_flatMap', List.map_map]
      have hterm : ∀ p ∈ result.functions,
          ((fun a : Method => a.lines.countP (fun l => decide (l.number = x))) ∘
            (fun p : String × Function => Method.mk p.1 ""
              ((lines_in_function result p.2).map
                (line_from_number result.lines result.branches)))) p
            = (fun p : String × Function =>
                if inFunctionRange result p.2 x then 1 else 0) p := by
        intro p hp'
        dsimp only [Function.comp]
        rw [countP_number_map, lines_in_function, List.countP_filter,
          countP_eq_and_of_nodup _ hnd]
        simp [hx]
      rw [List.map_congr_left hterm, sum_map_ite_countP]
      rfl
    have horph : ((orphan_lines result).map
          (line_from_number result.lines result.branches)).countP
        (fun l => decide (l.number = x))
        = (if claimCount result x = 0 then 1 else 0) := by
      rw [countP_number_map, orphan_lines_eq_filter, List.countP_filter,
        countP_eq_and_of_nodup _ hnd]
      have hiff : (result.functions.all (fun p => ! inFunctionRange result p.2 x) = true)
          ↔ claimCount result x = 0 := by
        rw [claimCount, List.countP_eq_zero, List.all_eq_true]
        constructor <;> intro h p hp' <;> simpa using h p hp'
      by_cases hc : claimCount result x = 0
      · rw [if_pos hc, if_pos ⟨hx, hiff.mpr hc⟩]
      · rw [if_neg hc, if_neg (fun hcon => hc (hiff.mp hcon.2))]
    rw [hmeth, horph]
    by_cases hc : claimCount result x = 0
    · rw [if_pos hc, if_pos hc, hc]
    · rw [if_neg hc, if_neg hc]
      omega

/-- Witness for C2 on Scenario B at line 8: the two claiming entries share
start 6, and line 8 appears in exactly two leaves (one per duplicate-start
entry). -/
theorem c2_attribution_exactly_once_witness :
    (claimStarts scenarioB 8).length ≤ 1 ∧
    leafCount (buildClass "src/main.rs" "src/main.rs" scenarioB) 8
      = (if claimCount scenarioB 8 = 0 then 1 else claimCount scenarioB 8) :=
  c2_attribution_exactly_once scenarioB "src/main.rs" "src/main.rs"
    (by unfold CovResult.WF; norm_num [scenarioB, List.chain'_cons, List.chain'_singleton]) 8 (by decide)
